import Mathlib

/-!
# Verification of the `crontab` package (pm-esd/crontab)

Shallow embedding of `src/crontab.go`. Strings are modelled as `List Char`;
Go `int` is modelled as `ℤ` (64-bit overflow is modelled where the source's
`strconv.Atoi` can observe it). The Go value sets `map[int]struct{}` become
`Finset ℤ`.

The source's field parser `parsePart` contains the loop
`for i := localMin; i <= localMax; i += n`, whose `i += n` is 64-bit wrapping
Go `int` addition: the successive values of `i` are the two's-complement
wraps of `localMin + k*n`, and the loop stops at the first iterate exceeding
`localMax` — if no iterate ever exceeds it (for example when `n = 0` and
`localMin ≤ localMax`), the loop never terminates. The embedding computes
exactly the wrapped iterates and makes the non-termination explicit with a
`diverge` result constructor; one orbit of `i += n` (its period divides
`2^64`) decides which of the two happens. The unit-increment fill loops
(wildcard and list ranges) add the consecutive integers of an interval and
are modelled as that interval.
-/

namespace Cron

/-- RE2 `\s` for Go's `regexp`: exactly the ASCII class `[\t\n\f\r ]`. -/
def isWs (c : Char) : Bool :=
  c == ' ' || c == '\t' || c == '\n' || c == '\x0c' || c == '\r'

/-- Numeric value of a digit string, as read left to right (`strconv.Atoi` core). -/
def digitsVal (l : List Char) : ℕ :=
  l.foldl (fun a c => 10 * a + (c.toNat - 48)) 0

/-- Go's max `int` on a 64-bit platform (`strconv.Atoi` clamps here on range error). -/
def intMax : ℤ := 9223372036854775807

/-- Go's min `int` on a 64-bit platform. -/
def intMin : ℤ := -9223372036854775808

/-- Sign handling of `strconv.ParseInt`: strip one leading `+` or `-`. -/
def stripSign (x : List Char) : Bool × List Char :=
  if x.head? = some '+' then (false, x.tail)
  else if x.head? = some '-' then (true, x.tail)
  else (false, x)

/-- `strconv.Atoi x` : returns the Go result value together with `err == nil`.
On a syntax error Go returns `(0, err)`; on a range error it returns the
clamped 64-bit value together with a non-nil error. -/
def atoiRaw (x : List Char) : ℤ × Bool :=
  if (stripSign x).2 = [] then (0, false)
  else if ¬ ((stripSign x).2.all Char.isDigit = true) then (0, false)
  else if (stripSign x).1 then
    if (digitsVal (stripSign x).2 : ℤ) > -intMin then (intMin, false)
    else (-(digitsVal (stripSign x).2 : ℤ), true)
  else
    if (digitsVal (stripSign x).2 : ℤ) > intMax then (intMax, false)
    else ((digitsVal (stripSign x).2 : ℤ), true)

/-- `strconv.Atoi` as used where the source checks `err == nil`. -/
def atoi (x : List Char) : Option ℤ :=
  if (atoiRaw x).2 then some (atoiRaw x).1 else none

/-- `matchRange = regexp.MustCompile("^(\\d+)-(\\d+)$")` applied by
`FindStringSubmatch`, returning the two captures fed through `strconv.Atoi`
with the error ignored (both call sites in the source discard the error).
The anchored pattern matches exactly `digits ++ "-" ++ digits`: the greedy
`\d+` takes the maximal digit run, the next character must be `-`, and the
remainder must be one or more digits (`\d` can never match `-`, so no
backtracking produces any other decomposition). -/
def matchRangeFn (x : List Char) : Option (ℤ × ℤ) :=
  if x.takeWhile Char.isDigit ≠ [] ∧
     (x.drop (x.takeWhile Char.isDigit).length).head? = some '-' ∧
     (x.drop (x.takeWhile Char.isDigit).length).tail ≠ [] ∧
     (x.drop (x.takeWhile Char.isDigit).length).tail.all Char.isDigit = true then
    some ((atoiRaw (x.takeWhile Char.isDigit)).1,
          (atoiRaw ((x.drop (x.takeWhile Char.isDigit).length).tail)).1)
  else none

/-- Position of the last `/` that is immediately followed by a digit; this is
the slash chosen by the greedy `.*` of `matchN = "(.*)/(\\d+)"`. -/
def lastSlashPos : List Char → Option ℕ
  | [] => none
  | [_] => none
  | c :: d :: rest =>
    match lastSlashPos (d :: rest) with
    | some i => some (i + 1)
    | none => if c = '/' ∧ d.isDigit = true then some 0 else none

/-- Try to match `(.*)/(\d+)` anchored at the start of `l` (Go regexp `.`
does not match a newline, so the `.*` part is confined to the maximal
newline-free prefix). Returns the two captures: the greedy `.*` reaches the
last `/`-followed-by-digit inside that prefix, and `\d+` greedily takes the
following digit run. -/
def tryStepAt (l : List Char) : Option (List Char × List Char) :=
  match lastSlashPos (l.takeWhile (fun c => c != '\n')) with
  | none => none
  | some i =>
    some ((l.takeWhile (fun c => c != '\n')).take i,
          ((l.takeWhile (fun c => c != '\n')).drop (i + 1)).takeWhile Char.isDigit)

/-- `matchN.FindStringSubmatch`: the unanchored search tries successive start
positions left to right and returns the captures of the first position that
matches. -/
def matchNFn : List Char → Option (List Char × List Char)
  | [] => none
  | c :: rest =>
    match tryStepAt (c :: rest) with
    | some r => some r
    | none => matchNFn rest

/-- `strings.Split` with a one-character separator. -/
def splitCh (sep : Char) : List Char → List (List Char)
  | [] => [[]]
  | c :: rest =>
    match splitCh sep rest with
    | [] => [[]]
    | h :: t => if c = sep then [] :: h :: t else (c :: h) :: t

/-- Two's-complement wrap into the 64-bit signed range: the value of a Go
`int` holding the mathematical integer `x`. -/
def wrap64 (x : ℤ) : ℤ := (x + 2 ^ 63) % 2 ^ 64 - 2 ^ 63

/-- The loop variable of `for i := localMin; i <= localMax; i += n` after
`k` increments: it starts at `localMin`, and every `i += n` is 64-bit
wrapping addition, so after `k ≥ 1` increments it holds the wrap of the
mathematical sum `localMin + k*n`. -/
def stepIter (lo n : ℤ) : ℕ → ℤ
  | 0 => lo
  | k + 1 => wrap64 (lo + ((k + 1 : ℕ) : ℤ) * n)

/-- The period of the orbit of `i += n` on 64-bit integers:
`2^64 / gcd(n mod 2^64, 2^64)`. The wrapped iterates repeat with this
period, so indices `0, 1, …, period` cover every value the loop variable
can ever take. -/
def stepPeriod (n : ℤ) : ℕ := 2 ^ 64 / Nat.gcd (n % 2 ^ 64).toNat (2 ^ 64)

/-- Bounded search (from index `k`, for `fuel` steps) for the first loop
iteration whose value exceeds `hi` — the iteration at which the fill loop's
condition `i <= localMax` first fails. -/
def searchExceed (lo hi n : ℤ) : ℕ → ℕ → Option ℕ
  | 0, _ => none
  | fuel + 1, k =>
    if hi < stepIter lo n k then some k else searchExceed lo hi n fuel (k + 1)

/-- The fill loop `for i := localMin; i <= localMax; i += n`: searching one
full orbit (indices `0 … period`) finds the first iterate exceeding `hi`
exactly when the loop terminates; the resulting set holds the iterates
before it. `none` means the loop never terminates. -/
def stepFill (lo hi n : ℤ) : Option (Finset ℤ) :=
  match searchExceed lo hi n (stepPeriod n + 1) 0 with
  | some T => some ((Finset.range T).image (stepIter lo n))
  | none => none

/-- Outcome of `parsePart`: a set, one of the source's three error shapes, or
non-termination of the step-filling loop. -/
inductive PartErr
  | outOfRange
  | unparseable
  | emptySet
deriving DecidableEq

inductive PartResult
  | ok (s : Finset ℤ)
  | err (e : PartErr)
  | diverge
deriving DecidableEq

/-- The source's `for i := localMin; i <= localMax; i += n` fill loop as a
`PartResult`: the set of values added before the loop exits, or divergence
when no wrapped iterate ever exceeds the bound (for example `n = 0` with
`localMin ≤ localMax`). -/
def stepRun (lo hi n : ℤ) : PartResult :=
  match stepFill lo hi n with
  | some S => .ok S
  | none => .diverge

/-- One term of the comma-list branch of `parsePart`: a `low-high` range
(bounds checked, then every value of the range added) or a bare integer
(bounds checked); anything else is unparseable. -/
def listTerm (minv maxv : ℤ) (x : List Char) : Except PartErr (Finset ℤ) :=
  match matchRangeFn x with
  | some (lo, hi) =>
    if lo < minv ∨ hi > maxv then .error .outOfRange else .ok (Finset.Icc lo hi)
  | none =>
    match atoi x with
    | some i => if i < minv ∨ i > maxv then .error .outOfRange else .ok {i}
    | none => .error .unparseable

/-- The comma-list loop of `parsePart`: left to right, first error wins,
successful terms contribute the union of their values. -/
def listRun (minv maxv : ℤ) : List (List Char) → Except PartErr (Finset ℤ)
  | [] => .ok ∅
  | x :: xs =>
    match listTerm minv maxv x with
    | .error e => .error e
    | .ok s =>
      match listRun minv maxv xs with
      | .error e => .error e
      | .ok s2 => .ok (s ∪ s2)

/-- `parsePart(s, min, max)` from `src/crontab.go`:
`*` gives the whole bound; otherwise a `matchN` hit takes the step branch
(base `""` or `*` means the whole bound, a range base is bounds-checked,
any other base is an error, then the fill loop runs with the parsed step);
otherwise the comma-list branch runs and an empty final set is an error. -/
def parsePart (s : List Char) (minv maxv : ℤ) : PartResult :=
  if s = ['*'] then .ok (Finset.Icc minv maxv)
  else
    match matchNFn s with
    | some (base, ds) =>
      if base ≠ [] ∧ base ≠ ['*'] then
        match matchRangeFn base with
        | some (lo, hi) =>
          if lo < minv ∨ hi > maxv then .err .outOfRange
          else stepRun lo hi (atoiRaw ds).1
        | none => .err .unparseable
      else stepRun minv maxv (atoiRaw ds).1
    | none =>
      match listRun minv maxv (splitCh ',' s) with
      | .error e => .err e
      | .ok r => if r = ∅ then .err .emptySet else .ok r

/-- `regexp "\\s+"` / `ReplaceAllLiteralString(s, " ")`: every maximal run of
whitespace characters is replaced by a single space. -/
def collapse : List Char → List Char
  | [] => []
  | [c] => if isWs c = true then [' '] else [c]
  | c :: d :: rest =>
    if isWs c = true then
      if isWs d = true then collapse (d :: rest) else ' ' :: collapse (d :: rest)
    else c :: collapse (d :: rest)

/-- Model of a Go `reflect.Type`, identified by name, with its kind's
interface-ness and the set of interface names the type implements
(`t2.Implements(t1)` becomes membership of `t1`'s name). -/
structure GoType where
  name : String
  isInterface : Bool
  impls : List String
deriving DecidableEq

/-- The `fn interface{}` argument of `AddJob` as `reflect` sees it: the nil
interface, a value of `reflect.Func` kind with its parameter types, or a
non-nil value of any other kind. -/
inductive FnVal
  | nil
  | func (params : List GoType)
  | nonFunc
deriving DecidableEq

/-- The `job` struct of the source: six value sets plus the callable and its
bound arguments (arguments are modelled by their `reflect` types). -/
structure Job where
  second : Finset ℤ
  min : Finset ℤ
  hour : Finset ℤ
  day : Finset ℤ
  month : Finset ℤ
  dayOfWeek : Finset ℤ
  fn : FnVal
  args : List GoType
deriving DecidableEq

/-- The `tick` struct: an instant decomposed into six integer components. -/
structure Tick where
  second : ℤ
  min : ℤ
  hour : ℤ
  day : ℤ
  month : ℤ
  dayOfWeek : ℤ

/-- `job.tick` from the source: the early-return chain requiring second,
minute and hour membership, then `day ∨ dayOfWeek`, then month membership. -/
def Job.tick (j : Job) (t : Tick) : Bool :=
  if t.second ∉ j.second then false
  else if t.min ∉ j.min then false
  else if t.hour ∉ j.hour then false
  else if t.day ∉ j.day ∧ t.dayOfWeek ∉ j.dayOfWeek then false
  else if t.month ∉ j.month then false
  else true

/-- Outcome of `parseSchedule`: a job, the wrong-field-count error, a field
parse error, or non-termination propagated from `parsePart`. -/
inductive SchedErr
  | fieldCount
  | field (e : PartErr)
deriving DecidableEq

inductive SchedResult
  | ok (j : Job)
  | err (e : SchedErr)
  | diverge
deriving DecidableEq

/-- Sequencing of the source's `j.x, err = parsePart(...); if err != nil
{ return j, err }` steps. -/
def bindPart (r : PartResult) (f : Finset ℤ → SchedResult) : SchedResult :=
  match r with
  | .ok s => f s
  | .err e => .err (.field e)
  | .diverge => .diverge

/-- `parseSchedule` from the source: collapse whitespace, split on single
spaces, demand exactly six parts, parse each with its bound, then the
day-of-month / day-of-week `switch` (first matching case wins). -/
def parseSchedule (s : List Char) : SchedResult :=
  match splitCh ' ' (collapse s) with
  | [p0, p1, p2, p3, p4, p5] =>
    bindPart (parsePart p0 0 59) fun sec =>
    bindPart (parsePart p1 0 59) fun mi =>
    bindPart (parsePart p2 0 23) fun hr =>
    bindPart (parsePart p3 1 31) fun day =>
    bindPart (parsePart p4 1 12) fun mon =>
    bindPart (parsePart p5 0 6) fun dow =>
    if day.card < 31 ∧ dow.card = 7 then
      .ok ⟨sec, mi, hr, day, mon, ∅, .nil, []⟩
    else if dow.card < 7 ∧ day.card = 31 then
      .ok ⟨sec, mi, hr, ∅, mon, dow, .nil, []⟩
    else
      .ok ⟨sec, mi, hr, day, mon, dow, .nil, []⟩
  | _ => .err .fieldCount

/-- The `Crontab` struct, restricted to its job collection (the ticker and
its goroutine carry no parse/match logic). -/
structure Crontab where
  jobs : List Job
deriving DecidableEq

/-- The errors `AddJob` can return. -/
inductive AddErr
  | sched (e : SchedErr)
  | notFunc
  | arity
  | paramType
  | paramImpl
deriving DecidableEq

/-- The per-parameter loop of `AddJob`: for each index, equal types pass;
otherwise the parameter type must be an interface that the argument type
implements. -/
def checkArgs : List GoType → List GoType → Option AddErr
  | t1 :: ps, t2 :: bs =>
    if t1 = t2 then checkArgs ps bs
    else if ¬ t1.isInterface = true then some .paramType
    else if ¬ (t1.name ∈ t2.impls) then some .paramImpl
    else checkArgs ps bs
  | _, _ => none

/-- Result of a call to `AddJob`: the updated receiver together with the
returned error, or non-termination propagated from `parseSchedule`. -/
inductive AddJobResult
  | done (c : Crontab) (e : Option AddErr)
  | diverge
deriving DecidableEq

/-- `Crontab.AddJob` from the source: parse the schedule (returning its error
untouched on failure), reject a nil or non-func callable, reject an arity
mismatch, run the per-parameter type checks, and only after all checks pass
append the job (with the callable and arguments filled in) to `c.jobs`. -/
def Crontab.AddJob (c : Crontab) (schedule : List Char) (fn : FnVal)
    (args : List GoType) : AddJobResult :=
  match parseSchedule schedule with
  | .diverge => .diverge
  | .err e => .done c (some (.sched e))
  | .ok j =>
    match fn with
    | .nil => .done c (some .notFunc)
    | .nonFunc => .done c (some .notFunc)
    | .func params =>
      if args.length ≠ params.length then .done c (some .arity)
      else
        match checkArgs params args with
        | some e => .done c (some e)
        | none =>
          .done ⟨c.jobs ++ [{ j with fn := .func params, args := args }]⟩ none

/-! ## Helper lemmas about the embedded primitives -/

lemma ne_of_digit {c : Char} (h : c.isDigit = true) {d : Char}
    (hd : d.isDigit = false) : c ≠ d := by
  rintro rfl
  rw [h] at hd
  cases hd

lemma stripSign_digits {ds : List Char} (h1 : ds ≠ [])
    (h2 : ds.all Char.isDigit = true) : stripSign ds = (false, ds) := by
  cases ds with
  | nil => exact absurd rfl h1
  | cons c r =>
    have hc : c.isDigit = true := by
      simp only [List.all_cons, Bool.and_eq_true] at h2
      exact h2.1
    have hp : ¬ ((c :: r).head? = some '+') := by
      simp only [List.head?, Option.some.injEq]
      exact ne_of_digit hc (by decide)
    have hm : ¬ ((c :: r).head? = some '-') := by
      simp only [List.head?, Option.some.injEq]
      exact ne_of_digit hc (by decide)
    rw [stripSign, if_neg hp, if_neg hm]

lemma atoiRaw_digits_nonneg {ds : List Char}
    (h2 : ds.all Char.isDigit = true) : 0 ≤ (atoiRaw ds).1 := by
  by_cases h1 : ds = []
  · subst h1
    decide
  · rw [atoiRaw, stripSign_digits h1 h2]
    simp only [h1, h2, not_true_eq_false, if_false, Bool.false_eq_true]
    split
    · decide
    · positivity

lemma atoiRaw_digits_le_intMax {ds : List Char}
    (h2 : ds.all Char.isDigit = true) : (atoiRaw ds).1 ≤ intMax := by
  by_cases h1 : ds = []
  · subst h1
    decide
  · rw [atoiRaw, stripSign_digits h1 h2]
    simp only [h1, h2, not_true_eq_false, if_false, Bool.false_eq_true]
    split
    · exact le_refl _
    · rename_i hlt
      exact not_lt.mp hlt

lemma matchRangeFn_bounds {x : List Char} {lo hi : ℤ}
    (h : matchRangeFn x = some (lo, hi)) :
    0 ≤ lo ∧ lo ≤ intMax ∧ 0 ≤ hi ∧ hi ≤ intMax := by
  rw [matchRangeFn] at h
  by_cases hc : x.takeWhile Char.isDigit ≠ [] ∧
      (x.drop (x.takeWhile Char.isDigit).length).head? = some '-' ∧
      (x.drop (x.takeWhile Char.isDigit).length).tail ≠ [] ∧
      (x.drop (x.takeWhile Char.isDigit).length).tail.all Char.isDigit = true
  · rw [if_pos hc] at h
    injection h with h
    injection h with h1 h2
    subst h1
    subst h2
    exact ⟨atoiRaw_digits_nonneg List.all_takeWhile,
      atoiRaw_digits_le_intMax List.all_takeWhile,
      atoiRaw_digits_nonneg hc.2.2.2, atoiRaw_digits_le_intMax hc.2.2.2⟩
  · rw [if_neg hc] at h
    cases h

lemma wrap64_eq_self {x : ℤ} (h1 : intMin ≤ x) (h2 : x ≤ intMax) :
    wrap64 x = x := by
  unfold wrap64 intMin intMax at *
  omega

lemma wrap64_congr {x y : ℤ} (h : (2 ^ 64 : ℤ) ∣ (x - y)) :
    wrap64 x = wrap64 y := by
  unfold wrap64
  omega

lemma stepIter_zero (lo n : ℤ) : stepIter lo n 0 = lo := rfl

lemma stepIter_succ (lo n : ℤ) (k : ℕ) :
    stepIter lo n (k + 1) = wrap64 (lo + ((k + 1 : ℕ) : ℤ) * n) := rfl

lemma stepPeriod_pos (n : ℤ) : 1 ≤ stepPeriod n := by
  unfold stepPeriod
  have hpos : 0 < Nat.gcd (n % 2 ^ 64).toNat (2 ^ 64) :=
    Nat.gcd_pos_of_pos_right _ (by norm_num)
  have hle : Nat.gcd (n % 2 ^ 64).toNat (2 ^ 64) ≤ 2 ^ 64 :=
    Nat.le_of_dvd (by norm_num) (Nat.gcd_dvd_right _ _)
  exact (Nat.le_div_iff_mul_le hpos).mpr (by omega)

lemma dvd_stepPeriod_mul (n : ℤ) : (2 ^ 64 : ℤ) ∣ (stepPeriod n : ℤ) * n := by
  have hmz : (((n % 2 ^ 64).toNat : ℕ) : ℤ) = n % 2 ^ 64 :=
    Int.toNat_of_nonneg (Int.emod_nonneg n (by norm_num))
  have hgm : Nat.gcd (n % 2 ^ 64).toNat (2 ^ 64) ∣ (n % 2 ^ 64).toNat :=
    Nat.gcd_dvd_left _ _
  have hgP : Nat.gcd (n % 2 ^ 64).toNat (2 ^ 64) ∣ 2 ^ 64 :=
    Nat.gcd_dvd_right _ _
  have hnat : stepPeriod n * (n % 2 ^ 64).toNat =
      2 ^ 64 * ((n % 2 ^ 64).toNat / Nat.gcd (n % 2 ^ 64).toNat (2 ^ 64)) := by
    unfold stepPeriod
    calc 2 ^ 64 / Nat.gcd (n % 2 ^ 64).toNat (2 ^ 64) * (n % 2 ^ 64).toNat
        = 2 ^ 64 / Nat.gcd (n % 2 ^ 64).toNat (2 ^ 64) *
            ((n % 2 ^ 64).toNat / Nat.gcd (n % 2 ^ 64).toNat (2 ^ 64) *
              Nat.gcd (n % 2 ^ 64).toNat (2 ^ 64)) := by
          rw [Nat.div_mul_cancel hgm]
      _ = 2 ^ 64 / Nat.gcd (n % 2 ^ 64).toNat (2 ^ 64) *
            Nat.gcd (n % 2 ^ 64).toNat (2 ^ 64) *
            ((n % 2 ^ 64).toNat / Nat.gcd (n % 2 ^ 64).toNat (2 ^ 64)) := by
          ring
      _ = 2 ^ 64 * ((n % 2 ^ 64).toNat / Nat.gcd (n % 2 ^ 64).toNat (2 ^ 64)) := by
          rw [Nat.div_mul_cancel hgP]
  have hmod : (2 ^ 64 : ℤ) ∣ (stepPeriod n : ℤ) * (n % 2 ^ 64) := by
    refine ⟨((n % 2 ^ 64).toNat / Nat.gcd (n % 2 ^ 64).toNat (2 ^ 64) : ℕ), ?_⟩
    rw [← hmz]
    exact_mod_cast hnat
  have hrest : (2 ^ 64 : ℤ) ∣ (stepPeriod n : ℤ) * n -
      (stepPeriod n : ℤ) * (n % 2 ^ 64) := by
    rw [← mul_sub]
    refine Dvd.dvd.mul_left ?_ _
    have hdef : n % 2 ^ 64 = n - 2 ^ 64 * (n / 2 ^ 64) := Int.emod_def n (2 ^ 64)
    exact ⟨n / 2 ^ 64, by omega⟩
  have := dvd_add hrest hmod
  simpa using this

lemma stepIter_add_period {lo n : ℤ} {k : ℕ} (hk : 1 ≤ k) :
    stepIter lo n (k + stepPeriod n) = stepIter lo n k := by
  obtain ⟨k2, rfl⟩ : ∃ k2, k = k2 + 1 := ⟨k - 1, by omega⟩
  have hidx : k2 + 1 + stepPeriod n = (k2 + stepPeriod n) + 1 := by omega
  rw [hidx, stepIter_succ, stepIter_succ]
  apply wrap64_congr
  have := dvd_stepPeriod_mul n
  have heq : lo + ((k2 + stepPeriod n + 1 : ℕ) : ℤ) * n -
      (lo + ((k2 + 1 : ℕ) : ℤ) * n) = (stepPeriod n : ℤ) * n := by
    push_cast
    ring
  rw [heq]
  exact this

lemma stepIter_reduce {lo n : ℤ} (k : ℕ) (hk : 1 ≤ k) :
    ∃ k2, 1 ≤ k2 ∧ k2 ≤ stepPeriod n ∧ stepIter lo n k2 = stepIter lo n k := by
  induction k using Nat.strong_induction_on with
  | _ k ih =>
    by_cases hle : k ≤ stepPeriod n
    · exact ⟨k, hk, hle, rfl⟩
    · have hP := stepPeriod_pos n
      have h1 : 1 ≤ k - stepPeriod n := by omega
      obtain ⟨k2, h2, h3, h4⟩ := ih (k - stepPeriod n) (by omega) h1
      refine ⟨k2, h2, h3, ?_⟩
      have hper : stepIter lo n ((k - stepPeriod n) + stepPeriod n) =
          stepIter lo n (k - stepPeriod n) := stepIter_add_period h1
      have hidx : (k - stepPeriod n) + stepPeriod n = k := by omega
      rw [hidx] at hper
      exact h4.trans hper.symm

lemma searchExceed_some {lo hi n : ℤ} :
    ∀ {fuel k0 T : ℕ}, searchExceed lo hi n fuel k0 = some T →
      k0 ≤ T ∧ T < k0 + fuel ∧ hi < stepIter lo n T ∧
        ∀ j, k0 ≤ j → j < T → stepIter lo n j ≤ hi := by
  intro fuel
  induction fuel with
  | zero => intro k0 T h; cases h
  | succ f ih =>
    intro k0 T h
    rw [searchExceed] at h
    by_cases hx : hi < stepIter lo n k0
    · rw [if_pos hx] at h
      injection h with h
      subst h
      exact ⟨le_refl _, by omega, hx, fun j hj1 hj2 => absurd (lt_of_le_of_lt hj1 hj2)
        (lt_irrefl _)⟩
    · rw [if_neg hx] at h
      obtain ⟨h1, h2, h3, h4⟩ := ih h
      refine ⟨by omega, by omega, h3, ?_⟩
      intro j hj1 hj2
      rcases eq_or_lt_of_le hj1 with rfl | hlt
      · exact not_lt.mp hx
      · exact h4 j (by omega) hj2

lemma searchExceed_none {lo hi n : ℤ} :
    ∀ {fuel k0 : ℕ}, searchExceed lo hi n fuel k0 = none →
      ∀ j, k0 ≤ j → j < k0 + fuel → stepIter lo n j ≤ hi := by
  intro fuel
  induction fuel with
  | zero => intro k0 h j hj1 hj2; omega
  | succ f ih =>
    intro k0 h j hj1 hj2
    rw [searchExceed] at h
    by_cases hx : hi < stepIter lo n k0
    · rw [if_pos hx] at h
      cases h
    · rw [if_neg hx] at h
      rcases eq_or_lt_of_le hj1 with rfl | hlt
      · exact not_lt.mp hx
      · exact ih h j (by omega) (by omega)

lemma stepFill_isSome {lo hi n : ℤ} (h : ∃ k : ℕ, hi < stepIter lo n k) :
    ∃ S, stepFill lo hi n = some S := by
  obtain ⟨k, hk⟩ := h
  have hex : ∃ k2, k2 ≤ stepPeriod n ∧ hi < stepIter lo n k2 := by
    rcases Nat.eq_zero_or_pos k with rfl | hpos
    · exact ⟨0, Nat.zero_le _, hk⟩
    · obtain ⟨k2, -, h3, h4⟩ := stepIter_reduce k hpos
      exact ⟨k2, h3, by rwa [h4]⟩
  obtain ⟨k2, hk2P, hk2⟩ := hex
  cases hs : searchExceed lo hi n (stepPeriod n + 1) 0 with
  | some T => exact ⟨_, by rw [stepFill, hs]⟩
  | none =>
    exfalso
    have := searchExceed_none hs k2 (Nat.zero_le _) (by omega)
    exact absurd this (not_le.mpr hk2)

lemma stepRun_ok_mem {lo hi n : ℤ} {S : Finset ℤ} (h : stepRun lo hi n = .ok S) :
    ∀ v : ℤ, v ∈ S ↔
      ∃ k : ℕ, v = stepIter lo n k ∧ ∀ j : ℕ, j ≤ k → stepIter lo n j ≤ hi := by
  rw [stepRun, stepFill] at h
  cases hs : searchExceed lo hi n (stepPeriod n + 1) 0 with
  | none => rw [hs] at h; cases h
  | some T =>
    rw [hs] at h
    dsimp only at h
    injection h with h
    subst h
    obtain ⟨-, -, hT, hbelow⟩ := searchExceed_some hs
    intro v
    simp only [Finset.mem_image, Finset.mem_range]
    constructor
    · rintro ⟨k, hkT, rfl⟩
      exact ⟨k, rfl, fun j hj => hbelow j (Nat.zero_le _) (lt_of_le_of_lt hj hkT)⟩
    · rintro ⟨k, rfl, hall⟩
      refine ⟨k, ?_, rfl⟩
      by_contra hge
      exact absurd (hall T (by omega)) (not_le.mpr hT)

lemma stepRun_ok_empty {lo hi n : ℤ} {S : Finset ℤ}
    (h : stepRun lo hi n = .ok S) (hS : S = ∅) : hi < lo := by
  rw [stepRun, stepFill] at h
  cases hs : searchExceed lo hi n (stepPeriod n + 1) 0 with
  | none => rw [hs] at h; cases h
  | some T =>
    rw [hs] at h
    dsimp only at h
    injection h with h
    obtain ⟨-, -, hT, -⟩ := searchExceed_some hs
    cases T with
    | zero => exact hT
    | succ m =>
      exfalso
      have hmem : stepIter lo n 0 ∈ (Finset.range (m + 1)).image (stepIter lo n) :=
        Finset.mem_image_of_mem _ (Finset.mem_range.mpr (Nat.succ_pos m))
      rw [h, hS] at hmem
      exact absurd hmem (Finset.not_mem_empty _)

lemma stepRun_ne_err {lo hi n : ℤ} {e : PartErr} :
    stepRun lo hi n ≠ .err e := by
  intro h
  rw [stepRun] at h
  cases hsf : stepFill lo hi n with
  | none => rw [hsf] at h; cases h
  | some S => rw [hsf] at h; cases h

lemma stepIter_no_wrap {lo n : ℤ} (hn : 0 ≤ n) (hlo1 : intMin ≤ lo)
    {k : ℕ} (h : lo + (k : ℤ) * n ≤ intMax) :
    stepIter lo n k = lo + (k : ℤ) * n := by
  cases k with
  | zero => simp [stepIter_zero]
  | succ m =>
    rw [stepIter_succ]
    apply wrap64_eq_self
    · have : (0 : ℤ) ≤ ((m + 1 : ℕ) : ℤ) * n :=
        mul_nonneg (by positivity) hn
      omega
    · exact h

lemma stepRun_ok_mem_no_wrap {lo hi n : ℤ} (hn : 0 ≤ n) (hlo1 : intMin ≤ lo)
    (hlo2 : lo ≤ intMax) (hhi : hi + n ≤ intMax) {S : Finset ℤ}
    (h : stepRun lo hi n = .ok S) :
    ∀ v : ℤ, v ∈ S ↔ ∃ k : ℕ, v = lo + (k : ℤ) * n ∧ v ≤ hi := by
  intro v
  rw [stepRun_ok_mem h v]
  constructor
  · rintro ⟨k, rfl, hall⟩
    have key : ∀ j : ℕ, j ≤ k →
        stepIter lo n j = lo + (j : ℤ) * n ∧ lo + (j : ℤ) * n ≤ intMax := by
      intro j
      induction j with
      | zero =>
        intro _
        refine ⟨?_, ?_⟩
        · rw [stepIter_zero]
          push_cast
          ring
        · push_cast
          simpa using hlo2
      | succ m ihm =>
        intro hj
        have hm : m ≤ k := by omega
        obtain ⟨hiter, -⟩ := ihm hm
        have hjhi : stepIter lo n m ≤ hi := hall m hm
        rw [hiter] at hjhi
        have hb2 : lo + ((m + 1 : ℕ) : ℤ) * n ≤ intMax := by
          push_cast
          nlinarith
        exact ⟨stepIter_no_wrap hn hlo1 hb2, hb2⟩
    obtain ⟨hiter, -⟩ := key k le_rfl
    exact ⟨k, hiter, hall k le_rfl⟩
  · rintro ⟨k, rfl, hvle⟩
    have hhiM : hi ≤ intMax := by omega
    refine ⟨k, ?_, ?_⟩
    · exact (stepIter_no_wrap hn hlo1 (le_trans hvle hhiM)).symm
    · intro j hj
      have hmono : lo + (j : ℤ) * n ≤ lo + (k : ℤ) * n := by
        have : (j : ℤ) * n ≤ (k : ℤ) * n :=
          mul_le_mul_of_nonneg_right (by exact_mod_cast hj) hn
        omega
      have hjle : lo + (j : ℤ) * n ≤ hi := le_trans hmono hvle
      rw [stepIter_no_wrap hn hlo1 (le_trans hjle hhiM)]
      exact hjle

lemma stepRun_ok_exists_no_wrap {lo hi n : ℤ} (hn : 1 ≤ n) (hlo1 : intMin ≤ lo)
    (_hlo2 : lo ≤ intMax) (hhi : hi + n ≤ intMax) :
    ∃ S, stepRun lo hi n = .ok S := by
  have hfill : ∃ S, stepFill lo hi n = some S := by
    apply stepFill_isSome
    by_cases hlh : lo ≤ hi
    · have hm : 0 < n.toNat := by omega
      have hcast2 : ((n.toNat : ℕ) : ℤ) = n := by omega
      have hcast1 : (((hi - lo).toNat : ℕ) : ℤ) = hi - lo := by omega
      have hA : (((hi - lo).toNat / n.toNat : ℕ) : ℤ) * n ≤ hi - lo := by
        have h0 : (hi - lo).toNat / n.toNat * n.toNat ≤ (hi - lo).toNat :=
          Nat.div_mul_le_self _ _
        have h1 : (((hi - lo).toNat / n.toNat * n.toNat : ℕ) : ℤ) ≤
            (((hi - lo).toNat : ℕ) : ℤ) := Int.ofNat_le.mpr h0
        rw [Nat.cast_mul, hcast2, hcast1] at h1
        exact h1
      have hB : hi - lo < (((hi - lo).toNat / n.toNat : ℕ) : ℤ) * n + n := by
        have hdm := Nat.div_add_mod (hi - lo).toNat n.toNat
        have hmod := Nat.mod_lt (hi - lo).toNat hm
        have h0 : (hi - lo).toNat <
            (hi - lo).toNat / n.toNat * n.toNat + n.toNat := by
          calc (hi - lo).toNat
              = n.toNat * ((hi - lo).toNat / n.toNat) + (hi - lo).toNat % n.toNat :=
                hdm.symm
            _ < n.toNat * ((hi - lo).toNat / n.toNat) + n.toNat :=
                Nat.add_lt_add_left hmod _
            _ = (hi - lo).toNat / n.toNat * n.toNat + n.toNat := by ring
        have h1 : (((hi - lo).toNat : ℕ) : ℤ) <
            (((hi - lo).toNat / n.toNat * n.toNat + n.toNat : ℕ) : ℤ) :=
          Int.ofNat_lt.mpr h0
        rw [Nat.cast_add, Nat.cast_mul, hcast2, hcast1] at h1
        exact h1
      refine ⟨(hi - lo).toNat / n.toNat + 1, ?_⟩
      have hcastk : (((hi - lo).toNat / n.toNat + 1 : ℕ) : ℤ) =
          (((hi - lo).toNat / n.toNat : ℕ) : ℤ) + 1 := by
        rw [Nat.cast_add, Nat.cast_one]
      have hexp : ((((hi - lo).toNat / n.toNat : ℕ) : ℤ) + 1) * n =
          (((hi - lo).toNat / n.toNat : ℕ) : ℤ) * n + n := by ring
      have hsum : lo + (((hi - lo).toNat / n.toNat + 1 : ℕ) : ℤ) * n ≤ intMax := by
        rw [hcastk, hexp]
        linarith
      rw [stepIter_no_wrap (by omega) hlo1 hsum, hcastk, hexp]
      linarith
    · refine ⟨0, ?_⟩
      rw [stepIter_zero]
      omega
  obtain ⟨S, hS⟩ := hfill
  exact ⟨S, by rw [stepRun, hS]⟩

lemma takeWhile_append_stop {p : Char → Bool} {xs : List Char} {y : Char}
    {ys : List Char} (hx : xs.all p = true) (hy : p y = false) :
    (xs ++ y :: ys).takeWhile p = xs := by
  induction xs with
  | nil => simp [List.takeWhile_cons, hy]
  | cons c r ih =>
    simp only [List.all_cons, Bool.and_eq_true] at hx
    simp [List.takeWhile_cons, hx.1, ih hx.2]

lemma lastSlashPos_none {m : List Char} (h : '/' ∉ m) : lastSlashPos m = none := by
  induction m with
  | nil => rfl
  | cons c r ih =>
    cases r with
    | nil => rfl
    | cons d r2 =>
      have hin : lastSlashPos (d :: r2) = none :=
        ih (fun hm => h (List.mem_cons_of_mem _ hm))
      rw [lastSlashPos, hin]
      simp only []
      rw [if_neg]
      rintro ⟨hc, _⟩
      exact h (hc ▸ List.mem_cons_self _ _)

lemma lastSlashPos_append {a ds : List Char} (ha : '/' ∉ a)
    (hds0 : ds ≠ []) (hdsd : ds.all Char.isDigit = true) (hdss : '/' ∉ ds) :
    lastSlashPos (a ++ '/' :: ds) = some a.length := by
  induction a with
  | nil =>
    cases ds with
    | nil => exact absurd rfl hds0
    | cons c r =>
      have hc : c.isDigit = true := by
        simp only [List.all_cons, Bool.and_eq_true] at hdsd
        exact hdsd.1
      have hin : lastSlashPos (c :: r) = none := lastSlashPos_none hdss
      simp only [List.nil_append]
      rw [lastSlashPos, hin]
      simp [hc]
  | cons x a2 ih =>
    have hne : a2 ++ '/' :: ds ≠ [] := by simp
    obtain ⟨y, t, hyt⟩ := List.exists_cons_of_ne_nil hne
    have hin : lastSlashPos (y :: t) = some a2.length := by
      rw [← hyt]
      exact ih (fun hm => ha (List.mem_cons_of_mem _ hm))
    simp only [List.cons_append, hyt]
    rw [lastSlashPos, hin]
    simp [List.length_cons]

lemma lastSlashPos_digit {m : List Char} {i : ℕ} (h : lastSlashPos m = some i) :
    ∃ c r, m.drop (i + 1) = c :: r ∧ c.isDigit = true := by
  induction m generalizing i with
  | nil => cases h
  | cons c r ih =>
    cases r with
    | nil => cases h
    | cons d r2 =>
      rw [lastSlashPos] at h
      cases hin : lastSlashPos (d :: r2) with
      | some j =>
        rw [hin] at h
        simp only [Option.some.injEq] at h
        subst h
        obtain ⟨e, t, het, he⟩ := ih hin
        exact ⟨e, t, by simpa [List.drop] using het, he⟩
      | none =>
        rw [hin] at h
        simp only [] at h
        split at h
        · simp only [Option.some.injEq] at h
          subst h
          rename_i hcond
          exact ⟨d, r2, rfl, hcond.2⟩
        · cases h

lemma tryStepAt_some {l b ds : List Char} (h : tryStepAt l = some (b, ds)) :
    ds ≠ [] ∧ ds.all Char.isDigit = true := by
  rw [tryStepAt] at h
  cases hin : lastSlashPos (l.takeWhile (fun c => c != '\n')) with
  | none => rw [hin] at h; cases h
  | some i =>
    rw [hin] at h
    simp only [Option.some.injEq, Prod.mk.injEq] at h
    obtain ⟨c, r, hdrop, hc⟩ := lastSlashPos_digit hin
    have hds : ds = ((l.takeWhile (fun c => c != '\n')).drop (i + 1)).takeWhile
        Char.isDigit := h.2.symm
    rw [hdrop] at hds
    constructor
    · rw [hds]
      simp [List.takeWhile_cons, hc]
    · rw [hds]
      exact List.all_takeWhile

lemma matchNFn_some {s b ds : List Char} (h : matchNFn s = some (b, ds)) :
    ds ≠ [] ∧ ds.all Char.isDigit = true := by
  induction s with
  | nil => cases h
  | cons c r ih =>
    rw [matchNFn] at h
    cases ht : tryStepAt (c :: r) with
    | some p =>
      rw [ht] at h
      simp only [Option.some.injEq] at h
      subst h
      exact tryStepAt_some ht
    | none =>
      rw [ht] at h
      exact ih h

lemma matchNFn_eq {a ds : List Char} (ha1 : '/' ∉ a) (ha2 : '\n' ∉ a)
    (hds1 : ds ≠ []) (hds2 : ds.all Char.isDigit = true) :
    matchNFn (a ++ '/' :: ds) = some (a, ds) := by
  have hdig : ∀ c ∈ ds, c.isDigit = true := List.all_eq_true.mp hds2
  have hnl : ∀ c ∈ a ++ '/' :: ds, (c != '\n') = true := by
    intro c hc
    rw [bne_iff_ne]
    rcases List.mem_append.mp hc with hca | hcd
    · exact fun he => ha2 (he ▸ hca)
    · rcases List.mem_cons.mp hcd with rfl | hcds
      · decide
      · exact ne_of_digit (hdig c hcds) (by decide)
  have htw : (a ++ '/' :: ds).takeWhile (fun c => c != '\n') = a ++ '/' :: ds :=
    List.takeWhile_eq_self_iff.mpr hnl
  have hdss : '/' ∉ ds := fun hm => by
    have := hdig _ hm
    exact absurd this (by decide)
  have hsl : lastSlashPos (a ++ '/' :: ds) = some a.length :=
    lastSlashPos_append ha1 hds1 hds2 hdss
  have htry : tryStepAt (a ++ '/' :: ds) = some (a, ds) := by
    rw [tryStepAt, htw, hsl]
    dsimp only
    have h1 : (a ++ '/' :: ds).take a.length = a := List.take_left _ _
    have h2 : (a ++ '/' :: ds).drop (a.length + 1) = ds := by
      rw [List.append_cons]
      have : (a ++ ['/']).length = a.length + 1 := by simp
      rw [← this]
      exact List.drop_left _ _
    rw [h1, h2, List.takeWhile_eq_self_iff.mpr (fun c hc => hdig c hc)]
  have hne : a ++ '/' :: ds ≠ [] := by simp
  obtain ⟨c, r, hcr⟩ := List.exists_cons_of_ne_nil hne
  rw [hcr, matchNFn, ← hcr, htry]

lemma matchRangeFn_eq {d1 d2 : List Char} (h11 : d1 ≠ [])
    (h12 : d1.all Char.isDigit = true) (h21 : d2 ≠ [])
    (h22 : d2.all Char.isDigit = true) :
    matchRangeFn (d1 ++ '-' :: d2) = some ((atoiRaw d1).1, (atoiRaw d2).1) := by
  have htw : (d1 ++ '-' :: d2).takeWhile Char.isDigit = d1 :=
    takeWhile_append_stop h12 (by decide)
  have hdrop : (d1 ++ '-' :: d2).drop d1.length = '-' :: d2 := List.drop_left _ _
  rw [matchRangeFn, htw, hdrop]
  rw [if_pos]
  · simp
  · exact ⟨h11, rfl, by simpa using h21, by simpa using h22⟩

lemma listTerm_ok_bounds {minv maxv : ℤ} {x : List Char} {s : Finset ℤ}
    (h : listTerm minv maxv x = .ok s) : ∀ v ∈ s, minv ≤ v ∧ v ≤ maxv := by
  rw [listTerm] at h
  cases hr : matchRangeFn x with
  | some lh =>
    obtain ⟨lo, hi⟩ := lh
    rw [hr] at h
    dsimp only at h
    by_cases hoor : lo < minv ∨ hi > maxv
    · rw [if_pos hoor] at h
      cases h
    · rw [if_neg hoor] at h
      push_neg at hoor
      injection h with h
      subst h
      intro v hv
      have := Finset.mem_Icc.mp hv
      exact ⟨le_trans hoor.1 this.1, le_trans this.2 hoor.2⟩
  | none =>
    rw [hr] at h
    dsimp only at h
    cases ha : atoi x with
    | some i =>
      rw [ha] at h
      dsimp only at h
      by_cases hoor : i < minv ∨ i > maxv
      · rw [if_pos hoor] at h
        cases h
      · rw [if_neg hoor] at h
        push_neg at hoor
        injection h with h
        subst h
        intro v hv
        rw [Finset.mem_singleton] at hv
        subst hv
        exact hoor
    | none => rw [ha] at h; cases h

lemma listRun_ok_bounds {minv maxv : ℤ} {parts : List (List Char)} {r : Finset ℤ}
    (h : listRun minv maxv parts = .ok r) : ∀ v ∈ r, minv ≤ v ∧ v ≤ maxv := by
  induction parts generalizing r with
  | nil =>
    rw [listRun] at h
    injection h with h
    subst h
    intro v hv
    simp at hv
  | cons x xs ih =>
    rw [listRun] at h
    cases ht : listTerm minv maxv x with
    | error e => rw [ht] at h; cases h
    | ok s =>
      rw [ht] at h
      cases hl : listRun minv maxv xs with
      | error e => rw [hl] at h; cases h
      | ok s2 =>
        rw [hl] at h
        injection h with h
        subst h
        intro v hv
        rcases Finset.mem_union.mp hv with hv1 | hv2
        · exact listTerm_ok_bounds ht v hv1
        · exact ih hl v hv2

/-! ## Claim theorems -/

/-- The step branch fill loop, per member: every added value is at most the
loop bound, and a value below the start can only be a 64-bit wrapped iterate
whose mathematical sum exceeds `MaxInt64`. -/
lemma step_branch_member {lo hi n : ℤ} {S : Finset ℤ}
    (h : stepRun lo hi n = .ok S) (hn : 0 ≤ n) (hloM : intMin ≤ lo) {v : ℤ}
    (hv : v ∈ S) :
    v ≤ hi ∧ (v < lo → ∃ k : ℕ, 1 ≤ k ∧ v = wrap64 (lo + (k : ℤ) * n) ∧
      intMax < lo + (k : ℤ) * n) := by
  obtain ⟨k, rfl, hall⟩ := (stepRun_ok_mem h v).mp hv
  refine ⟨hall k le_rfl, ?_⟩
  intro hvlt
  cases k with
  | zero =>
    rw [stepIter_zero] at hvlt
    exact absurd hvlt (lt_irrefl _)
  | succ m =>
    by_cases hover : intMax < lo + ((m + 1 : ℕ) : ℤ) * n
    · exact ⟨m + 1, by omega, stepIter_succ lo n m, hover⟩
    · exfalso
      push_neg at hover
      have hid := stepIter_no_wrap hn hloM hover
      rw [hid] at hvlt
      have hpos : (0 : ℤ) ≤ ((m + 1 : ℕ) : ℤ) * n := mul_nonneg (by positivity) hn
      linarith

/-- Claim C6 counterexample: the fill loop's `i += n` wraps at 64 bits, so
`*/9223372036854775807` over the day-of-month bound `[1, 31]` successfully
returns the set `{1, -2^63, -1}`, whose members `-2^63` and `-1` lie outside
the bound. -/
theorem parsePart_wrap_out_of_bounds_cex :
    parsePart "*/9223372036854775807".data 1 31 =
      PartResult.ok {1, -9223372036854775808, -1} ∧
    (-9223372036854775808 : ℤ) ∈ ({1, -9223372036854775808, -1} : Finset ℤ) ∧
    ¬ ((1 : ℤ) ≤ -9223372036854775808 ∧ (-9223372036854775808 : ℤ) ≤ 31) :=
  ⟨by decide, by decide, by decide⟩

/-- Claim C6 as amended: every member of a successfully parsed field set is
at most `max` (every fill loop only adds values that passed its `≤` test);
and, for a bound whose `min` is a 64-bit integer, a member below `min` can
only arise in the step branch as a 64-bit wrapped loop iterate
`wrap64 (lo + k*step)` whose mathematical sum exceeds `MaxInt64`, where
`lo` is the branch's sub-range start (`min` for a `*` or empty base, the
parsed low endpoint for a range base). Members produced by the wildcard and
comma-list branches always lie within `[min, max]`. -/
theorem parsePart_ok_mem_bounds_amended (s : List Char) (minv maxv : ℤ)
    (S : Finset ℤ) (hmin : intMin ≤ minv) (h : parsePart s minv maxv = .ok S) :
    ∀ v ∈ S, v ≤ maxv ∧
      (v < minv → ∃ (b ds : List Char) (lo : ℤ) (k : ℕ),
        matchNFn s = some (b, ds) ∧ 1 ≤ k ∧
        v = wrap64 (lo + (k : ℤ) * (atoiRaw ds).1) ∧
        intMax < lo + (k : ℤ) * (atoiRaw ds).1 ∧
        (lo = minv ∨ ∃ hi2, matchRangeFn b = some (lo, hi2))) := by
  rw [parsePart] at h
  by_cases hstar : s = ['*']
  · rw [if_pos hstar] at h
    injection h with h
    subst h
    intro v hv
    have hb := Finset.mem_Icc.mp hv
    exact ⟨hb.2, fun hvlt => absurd hb.1 (not_le.mpr hvlt)⟩
  · rw [if_neg hstar] at h
    cases hm : matchNFn s with
    | some bd =>
      obtain ⟨b, ds⟩ := bd
      rw [hm] at h
      dsimp only at h
      obtain ⟨hds1, hds2⟩ := matchNFn_some hm
      have hn : 0 ≤ (atoiRaw ds).1 := atoiRaw_digits_nonneg hds2
      by_cases hb : b ≠ [] ∧ b ≠ ['*']
      · rw [if_pos hb] at h
        cases hr : matchRangeFn b with
        | some lh =>
          obtain ⟨lo, hi⟩ := lh
          rw [hr] at h
          dsimp only at h
          by_cases hoor : lo < minv ∨ hi > maxv
          · rw [if_pos hoor] at h
            cases h
          · rw [if_neg hoor] at h
            push_neg at hoor
            intro v hv
            have hloM : intMin ≤ lo := by
              have := (matchRangeFn_bounds hr).1
              unfold intMin
              omega
            obtain ⟨hup, hlow⟩ := step_branch_member h hn hloM hv
            refine ⟨le_trans hup hoor.2, fun hvlt => ?_⟩
            obtain ⟨k, hk1, hk2, hk3⟩ := hlow (lt_of_lt_of_le hvlt hoor.1)
            exact ⟨b, ds, lo, k, rfl, hk1, hk2, hk3, Or.inr ⟨hi, hr⟩⟩
        | none => rw [hr] at h; cases h
      · rw [if_neg hb] at h
        intro v hv
        obtain ⟨hup, hlow⟩ := step_branch_member h hn hmin hv
        refine ⟨hup, fun hvlt => ?_⟩
        obtain ⟨k, hk1, hk2, hk3⟩ := hlow hvlt
        exact ⟨b, ds, minv, k, rfl, hk1, hk2, hk3, Or.inl rfl⟩
    | none =>
      rw [hm] at h
      dsimp only at h
      cases hl : listRun minv maxv (splitCh ',' s) with
      | error e => rw [hl] at h; cases h
      | ok r =>
        rw [hl] at h
        dsimp only at h
        by_cases hre : r = ∅
        · rw [if_pos hre] at h
          cases h
        · rw [if_neg hre] at h
          injection h with h
          subst h
          intro v hv
          have hb := listRun_ok_bounds hl v hv
          exact ⟨hb.2, fun hvlt => absurd hb.1 (not_le.mpr hvlt)⟩

/-- Witness for the amended C6 at the wrapping input itself: the member
`-2^63` of `*/9223372036854775807` over `[1, 31]` is at most `31`, and being
below `1` it is a wrapped step-branch iterate. -/
theorem parsePart_ok_mem_bounds_amended_w :
    (-9223372036854775808 : ℤ) ≤ 31 ∧
    ((-9223372036854775808 : ℤ) < 1 →
      ∃ (b ds : List Char) (lo : ℤ) (k : ℕ),
        matchNFn "*/9223372036854775807".data = some (b, ds) ∧
        1 ≤ k ∧
        (-9223372036854775808 : ℤ) = wrap64 (lo + (k : ℤ) * (atoiRaw ds).1) ∧
        intMax < lo + (k : ℤ) * (atoiRaw ds).1 ∧
        (lo = 1 ∨ ∃ hi2, matchRangeFn b = some (lo, hi2))) :=
  parsePart_ok_mem_bounds_amended "*/9223372036854775807".data 1 31
    {1, -9223372036854775808, -1} (by decide) (by decide)
    (-9223372036854775808) (by decide)

/-- Claim C1: `job.tick` returns true iff the instant's second, minute, hour
and month are members of the corresponding sets and the day-of-month or the
day-of-week is a member of its set; consequently if any of the four required
sets is empty the result is false. -/
theorem tick_iff (j : Job) (t : Tick) :
    (j.tick t = true ↔
      t.second ∈ j.second ∧ t.min ∈ j.min ∧ t.hour ∈ j.hour ∧ t.month ∈ j.month ∧
        (t.day ∈ j.day ∨ t.dayOfWeek ∈ j.dayOfWeek)) ∧
    ((j.second = ∅ ∨ j.min = ∅ ∨ j.hour = ∅ ∨ j.month = ∅) → j.tick t = false) := by
  have hiff : j.tick t = true ↔
      t.second ∈ j.second ∧ t.min ∈ j.min ∧ t.hour ∈ j.hour ∧ t.month ∈ j.month ∧
        (t.day ∈ j.day ∨ t.dayOfWeek ∈ j.dayOfWeek) := by
    rw [Job.tick]
    split_ifs with h1 h2 h3 h4 h5 <;> simp_all
    tauto
  refine ⟨hiff, ?_⟩
  intro hemp
  cases hb : j.tick t with
  | false => rfl
  | true =>
    obtain ⟨m1, m2, m3, m4, _⟩ := hiff.mp hb
    rcases hemp with he | he | he | he
    · rw [he] at m1
      exact absurd m1 (Finset.not_mem_empty _)
    · rw [he] at m2
      exact absurd m2 (Finset.not_mem_empty _)
    · rw [he] at m3
      exact absurd m3 (Finset.not_mem_empty _)
    · rw [he] at m4
      exact absurd m4 (Finset.not_mem_empty _)

/-- Witness for C1: a schedule with an empty second set never matches. -/
theorem tick_iff_w :
    Job.tick ⟨∅, ∅, ∅, ∅, ∅, ∅, .nil, []⟩ ⟨0, 0, 0, 1, 1, 0⟩ = false :=
  (tick_iff _ _).2 (Or.inl rfl)

/-- Claim C2: on a successfully split and field-parsed six-field expression,
`parseSchedule` applies the day-of-month / day-of-week disjunction rule
exactly as the source's `switch`: day card < 31 and day-of-week card = 7
clears day-of-week; otherwise day-of-week card < 7 and day card = 31 clears
day-of-month; otherwise both sets are kept as parsed. -/
theorem parseSchedule_disjunction (s : List Char)
    (p0 p1 p2 p3 p4 p5 : List Char) (sec mi hr day mon dow : Finset ℤ)
    (hsplit : splitCh ' ' (collapse s) = [p0, p1, p2, p3, p4, p5])
    (h0 : parsePart p0 0 59 = .ok sec) (h1 : parsePart p1 0 59 = .ok mi)
    (h2 : parsePart p2 0 23 = .ok hr) (h3 : parsePart p3 1 31 = .ok day)
    (h4 : parsePart p4 1 12 = .ok mon) (h5 : parsePart p5 0 6 = .ok dow) :
    parseSchedule s =
      (if day.card < 31 ∧ dow.card = 7 then
        SchedResult.ok ⟨sec, mi, hr, day, mon, ∅, .nil, []⟩
      else if dow.card < 7 ∧ day.card = 31 then
        SchedResult.ok ⟨sec, mi, hr, ∅, mon, dow, .nil, []⟩
      else SchedResult.ok ⟨sec, mi, hr, day, mon, dow, .nil, []⟩) := by
  rw [parseSchedule, hsplit]
  dsimp only
  rw [h0, h1, h2, h3, h4, h5]
  simp only [bindPart]

/-- Witness for C2 at `0 0 12 1 * *` (restricted day-of-month, wildcard
day-of-week): the day-of-week set is cleared. -/
theorem parseSchedule_disjunction_w :
    parseSchedule "0 0 12 1 * *".data =
      (if ({1} : Finset ℤ).card < 31 ∧ (Finset.Icc (0 : ℤ) 6).card = 7 then
        SchedResult.ok ⟨{0}, {0}, {12}, {1}, Finset.Icc 1 12, ∅, .nil, []⟩
      else if (Finset.Icc (0 : ℤ) 6).card < 7 ∧ ({1} : Finset ℤ).card = 31 then
        SchedResult.ok ⟨{0}, {0}, {12}, ∅, Finset.Icc 1 12, Finset.Icc 0 6, .nil, []⟩
      else SchedResult.ok ⟨{0}, {0}, {12}, {1}, Finset.Icc 1 12, Finset.Icc 0 6,
        .nil, []⟩) :=
  parseSchedule_disjunction "0 0 12 1 * *".data ['0'] ['0'] ['1', '2'] ['1']
    ['*'] ['*'] {0} {0} {12} {1} (Finset.Icc 1 12) (Finset.Icc 0 6) (by decide)
    (by decide) (by decide) (by decide) (by decide) (by decide) (by decide)

/-- Claim C4 (code bug): on the field spec `*/0` the source's fill loop
`for i := localMin; i <= localMax; i += n` is entered with `n = 0` and never
terminates; the embedding evaluates to the divergence marker instead of a
field set or an error. -/
theorem parsePart_star_slash_zero_diverges :
    parsePart "*/0".data 0 59 = PartResult.diverge := by decide

/-- Claim C3 counterexample: the step branch bypasses the empty-set check,
so the syntactically valid spec `5-3/2` (inverted range base, within bounds)
returns the empty set successfully instead of an error. -/
theorem parsePart_step_empty_ok :
    parsePart "5-3/2".data 0 59 = PartResult.ok ∅ := by decide

/-- Claim C3 as amended: over a non-degenerate bound, a successful parse
returns a non-empty set except via the step branch whose range base is
inverted (`high < low`); equivalently, an empty successful result can only
come from a `matchN` hit whose base is a range with `high < low`. -/
theorem parsePart_ok_nonempty_amended (s : List Char) (minv maxv : ℤ)
    (S : Finset ℤ) (hb : minv ≤ maxv) (h : parsePart s minv maxv = .ok S)
    (hS : S = ∅) :
    ∃ b ds lo hi, matchNFn s = some (b, ds) ∧ matchRangeFn b = some (lo, hi) ∧
      hi < lo := by
  subst hS
  rw [parsePart] at h
  by_cases hstar : s = ['*']
  · rw [if_pos hstar] at h
    injection h with h
    exact absurd h (Finset.nonempty_Icc.mpr hb).ne_empty
  · rw [if_neg hstar] at h
    cases hm : matchNFn s with
    | some bd =>
      obtain ⟨b, ds⟩ := bd
      rw [hm] at h
      dsimp only at h
      obtain ⟨hds1, hds2⟩ := matchNFn_some hm
      have hn : 0 ≤ (atoiRaw ds).1 := atoiRaw_digits_nonneg hds2
      by_cases hb2 : b ≠ [] ∧ b ≠ ['*']
      · rw [if_pos hb2] at h
        cases hr : matchRangeFn b with
        | some lh =>
          obtain ⟨lo, hi⟩ := lh
          rw [hr] at h
          dsimp only at h
          by_cases hoor : lo < minv ∨ hi > maxv
          · rw [if_pos hoor] at h
            cases h
          · rw [if_neg hoor] at h
            exact ⟨b, ds, lo, hi, rfl, hr, stepRun_ok_empty h rfl⟩
        | none => rw [hr] at h; cases h
      · rw [if_neg hb2] at h
        exact absurd (stepRun_ok_empty h rfl) (not_lt.mpr hb)
    | none =>
      rw [hm] at h
      dsimp only at h
      cases hl : listRun minv maxv (splitCh ',' s) with
      | error e => rw [hl] at h; cases h
      | ok r =>
        rw [hl] at h
        dsimp only at h
        by_cases hre : r = ∅
        · rw [if_pos hre] at h
          cases h
        · rw [if_neg hre] at h
          injection h with h
          exact absurd h hre

/-- Witness for the amended C3 at `5-3/2` over `[0, 59]`. -/
theorem parsePart_ok_nonempty_amended_w :
    (0 : ℤ) ≤ 59 ∧
    ∃ b ds lo hi, matchNFn "5-3/2".data = some (b, ds) ∧
      matchRangeFn b = some (lo, hi) ∧ hi < lo :=
  ⟨by decide,
   parsePart_ok_nonempty_amended "5-3/2".data 0 59 ∅ (by decide) (by decide) rfl⟩

/-- Claim C9 counterexample: for step value `0` the spec `/0` does not
produce the set `{min}` (nor any set): the fill loop never terminates. -/
theorem parsePart_slash_zero_diverges :
    parsePart "/0".data 0 59 = PartResult.diverge := by decide

/-- Claim C9 as amended: a step term with an empty base (`/n`) is accepted
and treated identically to `*/n` (the two specs take the same code path for
every bound and every digit string `n`); and for every step value `n ≥ 1`
whose fill loop stays within 64-bit arithmetic (the bound is a 64-bit
integer and `max + n ≤ MaxInt64`), it produces exactly the set
`min, min+n, min+2n, …` of values not exceeding `max`. (For `n = 0` the
loop never terminates, and for steps so large that `i += n` wraps the set
gains wrapped members instead — see the fill-loop bug of C4 and the wrap
counterexample of C6.) -/
theorem parsePart_empty_base_step (minv maxv : ℤ) (ds : List Char)
    (hds1 : ds ≠ []) (hds2 : ds.all Char.isDigit = true) :
    parsePart ('/' :: ds) minv maxv = parsePart ('*' :: '/' :: ds) minv maxv ∧
    (1 ≤ (atoiRaw ds).1 → intMin ≤ minv → minv ≤ intMax →
      maxv + (atoiRaw ds).1 ≤ intMax →
      ∃ S, parsePart ('/' :: ds) minv maxv = .ok S ∧
        ∀ v : ℤ, v ∈ S ↔
          ∃ k : ℕ, v = minv + (k : ℤ) * (atoiRaw ds).1 ∧ v ≤ maxv) := by
  have hm1 : matchNFn ('/' :: ds) = some ([], ds) := by
    have := matchNFn_eq (a := []) (by simp) (by simp) hds1 hds2
    simpa using this
  have hm2 : matchNFn ('*' :: '/' :: ds) = some (['*'], ds) := by
    have := matchNFn_eq (a := ['*']) (by decide) (by decide) hds1 hds2
    simpa using this
  have hlen1 : ('/' :: ds) ≠ ['*'] := by
    intro he
    injection he with hc _
    exact absurd hc (by decide)
  have hlen2 : ('*' :: '/' :: ds) ≠ ['*'] := by
    intro he
    injection he with _ ht
    cases ht
  have hcond1 : ¬ (([] : List Char) ≠ [] ∧ ([] : List Char) ≠ ['*']) := by
    rintro ⟨hc, _⟩
    exact hc rfl
  have hcond2 : ¬ ((['*'] : List Char) ≠ [] ∧ (['*'] : List Char) ≠ ['*']) := by
    rintro ⟨_, hc⟩
    exact hc rfl
  constructor
  · rw [parsePart, parsePart, if_neg hlen1, if_neg hlen2, hm1, hm2]
    dsimp only
    rw [if_neg hcond1, if_neg hcond2]
  · intro hn1 hminlo hminhi hmaxn
    obtain ⟨S, hS⟩ := stepRun_ok_exists_no_wrap hn1 hminlo hminhi hmaxn
    refine ⟨S, ?_, ?_⟩
    · rw [parsePart, if_neg hlen1, hm1]
      dsimp only
      rw [if_neg hcond1]
      exact hS
    · exact stepRun_ok_mem_no_wrap (by omega) hminlo hminhi hmaxn hS

/-- Witness for the amended C9 at `/5` over `[0, 59]`. -/
theorem parsePart_empty_base_step_w :
    parsePart "/5".data 0 59 = parsePart "*/5".data 0 59 ∧
    ∃ S, parsePart "/5".data 0 59 = PartResult.ok S ∧
      ∀ v : ℤ, v ∈ S ↔
        ∃ k : ℕ, v = 0 + (k : ℤ) * (atoiRaw ['5']).1 ∧ v ≤ 59 := by
  have h := parsePart_empty_base_step 0 59 ['5'] (by decide) (by decide)
  exact ⟨h.1, h.2 (by decide) (by decide) (by decide) (by decide)⟩

/-- Claim C5 counterexample: with a step so large that the loop's `i += n`
wraps at 64 bits, `5-59/9223372036854775807` over `[0, 59]` successfully
returns `{5, -2^63+4, 3, -2^63+2, 1, -2^63, -1}` — not the arithmetic
progression the claim describes: its member `-1` is not of the form
`5 + k*step` with value at most `59`. -/
theorem parsePart_step_form_cex :
    parsePart "5-59/9223372036854775807".data 0 59 =
      PartResult.ok {5, -9223372036854775804, 3, -9223372036854775806, 1,
        -9223372036854775808, -1} ∧
    (-1 : ℤ) ∈ ({5, -9223372036854775804, 3, -9223372036854775806, 1,
        -9223372036854775808, -1} : Finset ℤ) ∧
    ¬ ∃ k : ℕ, (-1 : ℤ) = 5 + (k : ℤ) * 9223372036854775807 ∧
      (-1 : ℤ) ≤ 59 := by
  refine ⟨by decide, by decide, ?_⟩
  rintro ⟨k, hk, -⟩
  have hpos : (0 : ℤ) ≤ (k : ℤ) * 9223372036854775807 := by positivity
  omega

/-- Claim C5 as amended: for a step-form spec `low-high/step`, the parse is
an out-of-range error exactly when `low < min` or `high > max` (this part
is unchanged: the bounds check precedes the loop). On success the result is
exactly the set of fill-loop values — the 64-bit wrapped iterates
`stepIter low step k` taken while every iterate up to `k` is at most
`high`; whenever the loop arithmetic stays within 64 bits
(`high + step ≤ MaxInt64`), this is exactly the arithmetic progression
`low, low+step, low+2*step, …` of values not exceeding `high`. For the
base `*` (spec `*/step`) the same holds with the sub-range `[min, max]`. -/
theorem parsePart_step_form (minv maxv : ℤ) (d1 d2 ds : List Char)
    (h11 : d1 ≠ []) (h12 : d1.all Char.isDigit = true)
    (h21 : d2 ≠ []) (h22 : d2.all Char.isDigit = true)
    (h31 : ds ≠ []) (h32 : ds.all Char.isDigit = true) :
    (parsePart (d1 ++ '-' :: d2 ++ '/' :: ds) minv maxv = .err .outOfRange ↔
      (atoiRaw d1).1 < minv ∨ (atoiRaw d2).1 > maxv) ∧
    (∀ S, parsePart (d1 ++ '-' :: d2 ++ '/' :: ds) minv maxv = .ok S →
      ∀ v : ℤ, v ∈ S ↔
        ∃ k : ℕ, v = stepIter (atoiRaw d1).1 (atoiRaw ds).1 k ∧
          ∀ j : ℕ, j ≤ k →
            stepIter (atoiRaw d1).1 (atoiRaw ds).1 j ≤ (atoiRaw d2).1) ∧
    ((atoiRaw d2).1 + (atoiRaw ds).1 ≤ intMax →
      ∀ S, parsePart (d1 ++ '-' :: d2 ++ '/' :: ds) minv maxv = .ok S →
      ∀ v : ℤ, v ∈ S ↔
        ∃ k : ℕ, v = (atoiRaw d1).1 + (k : ℤ) * (atoiRaw ds).1 ∧
          v ≤ (atoiRaw d2).1) ∧
    (∀ S, parsePart ('*' :: '/' :: ds) minv maxv = .ok S →
      ∀ v : ℤ, v ∈ S ↔
        ∃ k : ℕ, v = stepIter minv (atoiRaw ds).1 k ∧
          ∀ j : ℕ, j ≤ k → stepIter minv (atoiRaw ds).1 j ≤ maxv) ∧
    (intMin ≤ minv → minv ≤ intMax → maxv + (atoiRaw ds).1 ≤ intMax →
      ∀ S, parsePart ('*' :: '/' :: ds) minv maxv = .ok S →
      ∀ v : ℤ, v ∈ S ↔
        ∃ k : ℕ, v = minv + (k : ℤ) * (atoiRaw ds).1 ∧ v ≤ maxv) := by
  have hd1 : ∀ c ∈ d1, c.isDigit = true := List.all_eq_true.mp h12
  have hd2 : ∀ c ∈ d2, c.isDigit = true := List.all_eq_true.mp h22
  have hn : 0 ≤ (atoiRaw ds).1 := atoiRaw_digits_nonneg h32
  have hlo1 : intMin ≤ (atoiRaw d1).1 := by
    have h0 := atoiRaw_digits_nonneg h12
    have h1 : intMin ≤ 0 := by decide
    omega
  have hlo2 : (atoiRaw d1).1 ≤ intMax := atoiRaw_digits_le_intMax h12
  have hnoslash : '/' ∉ d1 ++ '-' :: d2 := by
    intro hmem
    rcases List.mem_append.mp hmem with hc | hc
    · exact absurd (hd1 _ hc) (by decide)
    · rcases List.mem_cons.mp hc with he | hc
      · exact absurd he (by decide)
      · exact absurd (hd2 _ hc) (by decide)
  have hnonl : '\n' ∉ d1 ++ '-' :: d2 := by
    intro hmem
    rcases List.mem_append.mp hmem with hc | hc
    · exact absurd (hd1 _ hc) (by decide)
    · rcases List.mem_cons.mp hc with he | hc
      · exact absurd he (by decide)
      · exact absurd (hd2 _ hc) (by decide)
  have hassoc : d1 ++ '-' :: d2 ++ '/' :: ds = (d1 ++ '-' :: d2) ++ '/' :: ds := by
    simp
  have hm : matchNFn (d1 ++ '-' :: d2 ++ '/' :: ds) = some (d1 ++ '-' :: d2, ds) := by
    rw [hassoc]
    exact matchNFn_eq hnoslash hnonl h31 h32
  have hr : matchRangeFn (d1 ++ '-' :: d2) =
      some ((atoiRaw d1).1, (atoiRaw d2).1) := matchRangeFn_eq h11 h12 h21 h22
  have hlen1 : 1 ≤ d1.length := List.length_pos.mpr h11
  have hlen2 : 1 ≤ d2.length := List.length_pos.mpr h21
  have hlen3 : 1 ≤ ds.length := List.length_pos.mpr h31
  have hne_star : d1 ++ '-' :: d2 ++ '/' :: ds ≠ ['*'] := by
    intro he
    have := congrArg List.length he
    simp [List.length_append] at this
    omega
  have hbase : (d1 ++ '-' :: d2) ≠ [] ∧ (d1 ++ '-' :: d2) ≠ ['*'] := by
    constructor
    · simp
    · intro he
      have := congrArg List.length he
      simp [List.length_append] at this
      omega
  have hm2 : matchNFn ('*' :: '/' :: ds) = some (['*'], ds) := by
    have := matchNFn_eq (a := ['*']) (by decide) (by decide) h31 h32
    simpa using this
  have hcond2 : ¬ ((['*'] : List Char) ≠ [] ∧ (['*'] : List Char) ≠ ['*']) := by
    rintro ⟨_, hc⟩
    exact hc rfl
  have hstar2 : ('*' :: '/' :: ds) ≠ ['*'] := by
    intro he
    injection he with _ ht
    cases ht
  refine ⟨?_, ?_, ?_, ?_, ?_⟩
  · rw [parsePart, if_neg hne_star, hm]
    dsimp only
    rw [if_pos hbase, hr]
    dsimp only
    by_cases hoor : (atoiRaw d1).1 < minv ∨ (atoiRaw d2).1 > maxv
    · rw [if_pos hoor]
      exact ⟨fun _ => hoor, fun _ => rfl⟩
    · rw [if_neg hoor]
      exact ⟨fun he => absurd he stepRun_ne_err, fun hc => absurd hc hoor⟩
  · intro S hS v
    rw [parsePart, if_neg hne_star, hm] at hS
    dsimp only at hS
    rw [if_pos hbase, hr] at hS
    dsimp only at hS
    by_cases hoor : (atoiRaw d1).1 < minv ∨ (atoiRaw d2).1 > maxv
    · rw [if_pos hoor] at hS
      cases hS
    · rw [if_neg hoor] at hS
      exact stepRun_ok_mem hS v
  · intro hwf S hS v
    rw [parsePart, if_neg hne_star, hm] at hS
    dsimp only at hS
    rw [if_pos hbase, hr] at hS
    dsimp only at hS
    by_cases hoor : (atoiRaw d1).1 < minv ∨ (atoiRaw d2).1 > maxv
    · rw [if_pos hoor] at hS
      cases hS
    · rw [if_neg hoor] at hS
      exact stepRun_ok_mem_no_wrap hn hlo1 hlo2 hwf hS v
  · intro S hS v
    rw [parsePart, if_neg hstar2, hm2] at hS
    dsimp only at hS
    rw [if_neg hcond2] at hS
    exact stepRun_ok_mem hS v
  · intro hminlo hminhi hwf S hS v
    rw [parsePart, if_neg hstar2, hm2] at hS
    dsimp only at hS
    rw [if_neg hcond2] at hS
    exact stepRun_ok_mem_no_wrap hn hminlo hminhi hwf hS v

/-- Witness for the amended C5 at `1-59/2` over `[0, 59]` (wrap-free). -/
theorem parsePart_step_form_w :
    parsePart "1-59/2".data 0 59 =
      PartResult.ok ((Finset.range 30).image (fun k : ℕ => (1 : ℤ) + 2 * k)) ∧
    ((59 : ℤ) ∈ (Finset.range 30).image (fun k : ℕ => (1 : ℤ) + 2 * k) ↔
      ∃ k : ℕ, (59 : ℤ) = (atoiRaw ['1']).1 + (k : ℤ) * (atoiRaw ['2']).1 ∧
        (59 : ℤ) ≤ (atoiRaw ['5', '9']).1) :=
  ⟨by decide,
   (parsePart_step_form 0 59 ['1'] ['5', '9'] ['2'] (by decide) (by decide)
      (by decide) (by decide) (by decide) (by decide)).2.2.1 (by decide)
     ((Finset.range 30).image (fun k : ℕ => (1 : ℤ) + 2 * k)) (by decide) 59⟩

/-- Claim C7: whenever `AddJob` returns with an error — schedule syntax,
nil/non-func callable, arity mismatch, or parameter type incompatibility —
the job collection is exactly unchanged; when it returns without error,
exactly one job has been appended. -/
theorem addJob_mutates_iff (c : Crontab) (s : List Char) (fn : FnVal)
    (args : List GoType) (c2 : Crontab) (r : Option AddErr)
    (h : Crontab.AddJob c s fn args = .done c2 r) :
    (∀ e, r = some e → c2 = c) ∧
    (r = none → ∃ jb, c2.jobs = c.jobs ++ [jb]) := by
  rw [Crontab.AddJob] at h
  cases hps : parseSchedule s with
  | diverge => rw [hps] at h; cases h
  | err e =>
    rw [hps] at h
    dsimp only at h
    injection h with h1 h2
    subst h1
    subst h2
    exact ⟨fun _ _ => rfl, fun hn => by cases hn⟩
  | ok j =>
    rw [hps] at h
    dsimp only at h
    cases fn with
    | nil =>
      injection h with h1 h2
      subst h1
      subst h2
      exact ⟨fun _ _ => rfl, fun hn => by cases hn⟩
    | nonFunc =>
      injection h with h1 h2
      subst h1
      subst h2
      exact ⟨fun _ _ => rfl, fun hn => by cases hn⟩
    | func params =>
      dsimp only at h
      by_cases hlen : args.length ≠ params.length
      · rw [if_pos hlen] at h
        injection h with h1 h2
        subst h1
        subst h2
        exact ⟨fun _ _ => rfl, fun hn => by cases hn⟩
      · rw [if_neg hlen] at h
        cases hca : checkArgs params args with
        | some e =>
          rw [hca] at h
          injection h with h1 h2
          subst h1
          subst h2
          exact ⟨fun _ _ => rfl, fun hn => by cases hn⟩
        | none =>
          rw [hca] at h
          injection h with h1 h2
          subst h1
          subst h2
          refine ⟨?_, fun _ => ?_⟩
          · intro e he
            cases he
          · exact ⟨{ j with fn := .func params, args := args }, rfl⟩

/-- Witness for C7: registering `* * * * * *` with a zero-argument function
on an empty crontab appends exactly that job. -/
theorem addJob_mutates_iff_w :
    Crontab.AddJob ⟨[]⟩ "* * * * * *".data (.func []) [] =
      .done ⟨[⟨Finset.Icc 0 59, Finset.Icc 0 59, Finset.Icc 0 23,
        Finset.Icc 1 31, Finset.Icc 1 12, Finset.Icc 0 6, .func [], []⟩]⟩
        none ∧
    ∃ jb, ([⟨Finset.Icc 0 59, Finset.Icc 0 59, Finset.Icc 0 23,
      Finset.Icc 1 31, Finset.Icc 1 12, Finset.Icc 0 6, .func [], []⟩] :
        List Job) = [] ++ [jb] := by
  refine ⟨by decide, ?_⟩
  have h := addJob_mutates_iff ⟨[]⟩ "* * * * * *".data (.func []) []
    ⟨[⟨Finset.Icc 0 59, Finset.Icc 0 59, Finset.Icc 0 23, Finset.Icc 1 31,
      Finset.Icc 1 12, Finset.Icc 0 6, .func [], []⟩]⟩ none (by decide)
  exact h.2 rfl

lemma collapse_ws_prefix {w s : List Char} (hw1 : w ≠ [])
    (hw2 : w.all isWs = true) (hs : ∀ c ∈ s.head?, isWs c = false) :
    collapse (w ++ s) = ' ' :: collapse s := by
  induction w with
  | nil => exact absurd rfl hw1
  | cons x w2 ih =>
    have hx : isWs x = true := by
      simp only [List.all_cons, Bool.and_eq_true] at hw2
      exact hw2.1
    cases w2 with
    | nil =>
      cases s with
      | nil => simp [collapse, hx]
      | cons d s2 =>
        have hd : isWs d = false := hs d (by simp)
        simp [collapse, hx, hd]
    | cons y w3 =>
      have hw2y : (y :: w3).all isWs = true := by
        simp only [List.all_cons, Bool.and_eq_true] at hw2 ⊢
        exact hw2.2
      have hy : isWs y = true := by
        simp only [List.all_cons, Bool.and_eq_true] at hw2y
        exact hw2y.1
      have ih2 := ih (by simp) hw2y
      simp only [List.cons_append] at ih2 ⊢
      rw [collapse, if_pos hx, if_pos hy]
      exact ih2

lemma collapse_ws_only {w : List Char} (hw1 : w ≠ [])
    (hw2 : w.all isWs = true) : collapse w = [' '] := by
  have := collapse_ws_prefix (s := []) hw1 hw2 (by simp)
  simpa using this

lemma collapse_ws_suffix {w s : List Char} (hw1 : w ≠ [])
    (hw2 : w.all isWs = true) (hs : ∀ c ∈ s.getLast?, isWs c = false) :
    collapse (s ++ w) = collapse s ++ [' '] := by
  induction s with
  | nil => simpa using collapse_ws_only hw1 hw2
  | cons c s2 ih =>
    cases s2 with
    | nil =>
      have hc : isWs c = false := hs c (by simp [List.getLast?])
      cases w with
      | nil => exact absurd rfl hw1
      | cons x w2 =>
        have hcol : collapse (x :: w2) = [' '] := collapse_ws_only (by simp) hw2
        simp only [List.singleton_append, List.cons_append, List.nil_append]
        have h1 : collapse [c] = [c] := by simp [collapse, hc]
        rw [h1, collapse, if_neg (by simp [hc]), hcol]
        rfl
    | cons d s3 =>
      have hlast : ∀ c2 ∈ (d :: s3).getLast?, isWs c2 = false := by
        intro c2 hc2
        apply hs
        rwa [List.getLast?_cons_cons]
      have ih2 := ih hlast
      simp only [List.cons_append] at ih2 ⊢
      by_cases hc : isWs c = true
      · by_cases hd : isWs d = true
        · rw [collapse, if_pos hc, if_pos hd, ih2,
            collapse, if_pos hc, if_pos hd]
        · rw [collapse, if_pos hc, if_neg hd, ih2,
            collapse, if_pos hc, if_neg hd]
          simp
      · rw [collapse, if_neg hc, ih2, collapse, if_neg hc]
        simp

lemma splitCh_ne_nil (sep : Char) (l : List Char) : splitCh sep l ≠ [] := by
  cases l with
  | nil => simp [splitCh]
  | cons c rest =>
    rw [splitCh]
    cases hm : splitCh sep rest with
    | nil => simp
    | cons h t =>
      by_cases hc : c = sep
      · simp [hc]
      · simp [hc]

lemma splitCh_cons_sep (l : List Char) :
    splitCh ' ' (' ' :: l) = [] :: splitCh ' ' l := by
  cases hm : splitCh ' ' l with
  | nil => exact absurd hm (splitCh_ne_nil _ _)
  | cons h t =>
    rw [splitCh, hm]
    simp

lemma splitCh_append_sep (l : List Char) :
    splitCh ' ' (l ++ [' ']) = splitCh ' ' l ++ [[]] := by
  induction l with
  | nil => rfl
  | cons c l2 ih =>
    cases hm : splitCh ' ' l2 with
    | nil => exact absurd hm (splitCh_ne_nil _ _)
    | cons h t =>
      rw [hm] at ih
      simp only [List.cons_append]
      rw [splitCh, ih, splitCh, hm]
      by_cases hc : c = ' ' <;> simp [hc]

lemma parseSchedule_ok_split {s : List Char} {j : Job}
    (h : parseSchedule s = .ok j) :
    ∃ p0 p1 p2 p3 p4 p5, splitCh ' ' (collapse s) = [p0, p1, p2, p3, p4, p5] := by
  rw [parseSchedule] at h
  rcases hsp : splitCh ' ' (collapse s) with
    _ | ⟨p0, _ | ⟨p1, _ | ⟨p2, _ | ⟨p3, _ | ⟨p4, _ | ⟨p5, _ | ⟨p6, rest⟩⟩⟩⟩⟩⟩⟩ <;>
    rw [hsp] at h
  · cases h
  · cases h
  · cases h
  · cases h
  · cases h
  · cases h
  · exact ⟨p0, p1, p2, p3, p4, p5, rfl⟩
  · cases h

/-- Claim C10: a schedule expression with exactly six valid fields but
leading or trailing whitespace is rejected with the field-count syntax
error: whitespace collapse keeps a leading/trailing separator, so the split
produces an empty seventh part. -/
theorem parseSchedule_padded (s w : List Char) (j : Job)
    (hw1 : w ≠ []) (hw2 : w.all isWs = true)
    (hhead : ∀ c ∈ s.head?, isWs c = false)
    (hlast : ∀ c ∈ s.getLast?, isWs c = false)
    (hok : parseSchedule s = .ok j) :
    parseSchedule (w ++ s) = .err .fieldCount ∧
    parseSchedule (s ++ w) = .err .fieldCount := by
  obtain ⟨p0, p1, p2, p3, p4, p5, hsp⟩ := parseSchedule_ok_split hok
  constructor
  · rw [parseSchedule, collapse_ws_prefix hw1 hw2 hhead, splitCh_cons_sep, hsp]
  · rw [parseSchedule, collapse_ws_suffix hw1 hw2 hlast, splitCh_append_sep, hsp]
    rfl

/-- Witness for C10: padding the valid expression `0 0 12 1 * *` with a
space on either side yields the field-count error. -/
theorem parseSchedule_padded_w :
    parseSchedule " 0 0 12 1 * *".data = SchedResult.err .fieldCount ∧
    parseSchedule "0 0 12 1 * * ".data = SchedResult.err .fieldCount := by
  have h := parseSchedule_padded "0 0 12 1 * *".data [' ']
    ⟨{0}, {0}, {12}, {1}, Finset.Icc 1 12, ∅, .nil, []⟩ (by decide) (by decide)
    (by decide) (by decide) (by decide)
  exact ⟨h.1, h.2⟩

end Cron
